import Mathlib

/-!
Verification of the documented behaviour of `internal/docs/bloblang.go`
(Bloblang linting helpers and markdown generation for registered functions
and methods) and of the `redis_streams` output writer, against the design
specification. Go code is shallowly embedded: fallible Go functions return
`Except`, Go maps are association lists with overwrite-on-insert semantics,
and dependencies living outside the provided sources (the Bloblang compiler,
`parser.LineAndColOf`, the `Lint` record, the metadata filter and redis
client) are either taken as parameters or modelled from the spec where a
definition is required, as indicated in their doc comments.
-/

set_option autoImplicit false

namespace Benthos

/-! ### Registry data model (`internal/bloblang/query`)

The `query` package is not part of the provided sources; the shapes below
are modelled from the data-model section of the spec: specs carry a name, a
category (a string-typed enumeration in Go), a stability status
(stable | beta | deprecated | hidden), a description, parameter metadata
and documentation examples, and a method may override description/examples
per category it participates in. -/

/-- Go `query.Status` is a string type; values `"stable"`, `"beta"`,
`"deprecated"`, `"hidden"`. -/
abbrev Status := String

/-- Go `query.StatusHidden`. -/
def statusHidden : Status := "hidden"

/-- Go `query.StatusDeprecated`. -/
def statusDeprecated : Status := "deprecated"

/-- Go `query.FunctionCategory` is a string type. -/
abbrev FunctionCategory := String

def functionCategoryGeneral : FunctionCategory := "General"
def functionCategoryMessage : FunctionCategory := "Message Info"
def functionCategoryEnvironment : FunctionCategory := "Environment"
def functionCategoryDeprecated : FunctionCategory := "Deprecated"

/-- Go `query.MethodCategory` is a string type. -/
abbrev MethodCategory := String

def methodCategoryStrings : MethodCategory := "String Manipulation"
def methodCategoryNumbers : MethodCategory := "Number Manipulation"
def methodCategoryRegexp : MethodCategory := "Regular Expressions"
def methodCategoryTime : MethodCategory := "Timestamp Manipulation"
def methodCategoryCoercion : MethodCategory := "Type Coercion"
def methodCategoryObjectAndArray : MethodCategory := "Object & Array Manipulation"
def methodCategoryParsing : MethodCategory := "Parsing"
def methodCategoryEncoding : MethodCategory := "Encoding and Encryption"
def methodCategoryDeprecated : MethodCategory := "Deprecated"

/-- A documentation example: summary text, source snippet and ordered
(input, expected output) pairs. -/
structure ExampleSpec where
  Summary : String
  Mapping : String
  Results : List (String × String)
deriving DecidableEq, Repr

/-- Per-category participation entry of a method: the category plus optional
category-specific description and examples overriding those of the spec. -/
structure MethodCatSpec where
  Category : MethodCategory
  Description : String
  Examples : List ExampleSpec
deriving DecidableEq, Repr

/-- A registered Bloblang method spec. `Params` stands for the parameter
metadata the registry attaches to a spec; its contents are irrelevant here
and it is modelled as a list of names. -/
structure MethodSpec where
  Name : String
  Status : Status
  Params : List String
  Categories : List MethodCatSpec
  Description : String
  Examples : List ExampleSpec
deriving DecidableEq, Repr

/-- A registered Bloblang function spec (functions carry a single category). -/
structure FunctionSpec where
  Name : String
  Status : Status
  Category : FunctionCategory
  Description : String
  Examples : List ExampleSpec
deriving DecidableEq, Repr

/-- Go `strings.TrimSpace`. -/
def trimSpace (s : String) : String := s.trim

/-! ### `methodForCat` (internal/docs/bloblang.go) -/

/-- The loop body of `methodForCat`: scan the participation entries in order
for the first one matching `cat`; on a match copy the spec and overlay the
non-empty category-specific description (whitespace trimmed) and examples. -/
def methodForCatAux (s : MethodSpec) (cat : MethodCategory) :
    List MethodCatSpec → MethodSpec × Bool
  | [] => (s, false)
  | c :: rest =>
    if c.Category == cat then
      let spec := if c.Description.length > 0 then
        { s with Description := trimSpace c.Description } else s
      let spec := if c.Examples.length > 0 then
        { spec with Examples := c.Examples } else spec
      (spec, true)
    else methodForCatAux s cat rest

/-- Go `methodForCat(s query.MethodSpec, cat query.MethodCategory)
(query.MethodSpec, bool)`. -/
def methodForCat (s : MethodSpec) (cat : MethodCategory) : MethodSpec × Bool :=
  methodForCatAux s cat s.Categories

/-! ### Markdown contexts (internal/docs/bloblang.go)

`BloblangFunctionsMarkdown` and `BloblangMethodsMarkdown` build a template
context from the registry enumeration (`query.FunctionDocs()` /
`query.MethodDocs()`, taken here as the `specs` parameter) and render it
with a fixed template that prints, in order, one `###`-headed section per
spec of the General block (methods only) followed by each category block.
The context construction is embedded below; the rendered document mentions
exactly the specs held in the context, in context order, which
`methodsDocNames` / `functionsDocNames` capture. -/

/-- Go struct `functionCategory`. -/
structure functionCategory where
  Name : String
  Specs : List FunctionSpec
deriving DecidableEq, Repr

/-- Go struct `functionsContext`. -/
structure functionsContext where
  Categories : List functionCategory
deriving DecidableEq, Repr

/-- Go struct `methodCategory`. -/
structure methodCategory where
  Name : String
  Specs : List MethodSpec
deriving DecidableEq, Repr

/-- Go struct `methodsContext`. -/
structure methodsContext where
  Categories : List methodCategory
  General : List MethodSpec
deriving DecidableEq, Repr

/-- The fixed category order of `BloblangFunctionsMarkdown`. -/
def functionCatList : List FunctionCategory :=
  [functionCategoryGeneral, functionCategoryMessage,
   functionCategoryEnvironment, functionCategoryDeprecated]

/-- The fixed category order of `BloblangMethodsMarkdown`. -/
def methodCatList : List MethodCategory :=
  [methodCategoryStrings, methodCategoryNumbers, methodCategoryRegexp,
   methodCategoryTime, methodCategoryCoercion, methodCategoryObjectAndArray,
   methodCategoryParsing, methodCategoryEncoding, methodCategoryDeprecated]

/-- Context construction of `BloblangFunctionsMarkdown`: one bucket per
category in the fixed order, holding the specs of that category in
enumeration order; empty buckets are dropped. -/
def functionsContextOf (specs : List FunctionSpec) : functionsContext :=
  ⟨functionCatList.filterMap fun cat =>
    let functions : List FunctionSpec := specs.filter fun spec => spec.Category == cat
    if functions.length > 0 then some ⟨cat, functions⟩ else none⟩

/-- The per-category collection loop of `BloblangMethodsMarkdown`. -/
def methodsForCat (specs : List MethodSpec) (cat : MethodCategory) : List MethodSpec :=
  specs.filterMap fun spec =>
    let (spec, ok) := methodForCat spec cat
    if ok then some spec else none

/-- Context construction of `BloblangMethodsMarkdown`: category buckets in
the fixed order (empty ones dropped), then the General block holding every
spec with no categories whose status is not hidden, description trimmed. -/
def methodsContextOf (specs : List MethodSpec) : methodsContext :=
  ⟨methodCatList.filterMap fun cat =>
      let methods := methodsForCat specs cat
      if methods.length > 0 then some ⟨cat, methods⟩ else none,
   (specs.filter fun spec =>
      spec.Categories.length == 0 && spec.Status != statusHidden).map
     fun spec => { spec with Description := trimSpace spec.Description }⟩

/-- The method names mentioned by the rendered methods document, in render
order: the template prints the General block first, then each category
block. -/
def methodsDocNames (specs : List MethodSpec) : List String :=
  (methodsContextOf specs).General.map (fun s => s.Name) ++
    (methodsContextOf specs).Categories.flatMap fun c => c.Specs.map fun s => s.Name

/-- The function names mentioned by the rendered functions document, in
render order. -/
def functionsDocNames (specs : List FunctionSpec) : List String :=
  (functionsContextOf specs).Categories.flatMap fun c => c.Specs.map fun s => s.Name

/-! ### Diagnostics (`parser.LineAndColOf`) and lints

The `parser` package and the `Lint` record are not part of the provided
sources; they are modelled from the spec. -/

/-- Auxiliary scan of `LineAndColOf`: consume up to `offset` characters,
starting a new line (column 1) after each newline, and stop early at
end-of-input (the clamp). -/
def lineAndColAux : List Char → Nat → Nat → Nat → Nat × Nat
  | _, 0, line, col => (line, col)
  | [], _ + 1, line, col => (line, col)
  | c :: rest, n + 1, line, col =>
    if c = '\n' then lineAndColAux rest n (line + 1) 1
    else lineAndColAux rest n line (col + 1)

/-- Modelled from the spec: `parser.LineAndColOf(source, offset) ->
(line, column)` (the `parser` package is not among the provided sources) —
one-based line and column obtained by scanning the source for the newlines
preceding the offset, clamped to end-of-input. -/
def LineAndColOf (source : List Char) (offset : Nat) : Nat × Nat :=
  lineAndColAux source offset 1 1

/-- Modelled from the spec: the lint record consumed by config-validation
tooling carries the stable `(line, column, message)` triple (the `Lint`
definition of the type is not among the provided sources). -/
structure Lint where
  Line : Nat
  Column : Nat
  What : String
deriving DecidableEq, Repr

/-- Modelled from the spec: `NewLintError(line, msg)` builds a lint with the
given line and message; the column is the Go zero value until assigned. -/
def NewLintError (line : Nat) (msg : String) : Lint := ⟨line, 0, msg⟩

/-- The error side of a failed Bloblang compilation: a `*parser.Error`
carrying the offset of the failure in the source and its message, or any
other error carrying only a message. -/
inductive BloblangError where
  | parserError (pos : Nat) (msg : String)
  | otherError (msg : String)
deriving DecidableEq, Repr

/-- A Go `interface{}` config value as far as the lint functions inspect it:
a string or one of the non-string kinds. -/
inductive GoValue where
  | str (s : String)
  | intV (n : Int)
  | boolV (b : Bool)
  | nullV
deriving DecidableEq, Repr

/-- Go `LintBloblangMapping(v interface{}) []Lint`, parametric in the
compiler: `newMapping str` is the error side of
`bloblang.NewMapping("", str)` (`none` when compilation succeeds). A
non-string value yields no lints; a parser error yields one lint at the
`LineAndColOf` coordinates of its offset; any other error yields one lint
at line 0. -/
def LintBloblangMapping (newMapping : String → Option BloblangError)
    (v : GoValue) : List Lint :=
  match v with
  | .str str =>
    match newMapping str with
    | none => []
    | some (.parserError pos msg) =>
      let (line, col) := LineAndColOf str.toList pos
      let lint := NewLintError line msg
      [{ lint with Column := col }]
    | some (.otherError msg) => [NewLintError 0 msg]
  | _ => []

/-- Go `LintBloblangField(v interface{}) []Lint`, parametric in the
compiler: `newField str` is the error side of `bloblang.NewField(str)`.
Identical shape to `LintBloblangMapping`. -/
def LintBloblangField (newField : String → Option BloblangError)
    (v : GoValue) : List Lint :=
  match v with
  | .str str =>
    match newField str with
    | none => []
    | some (.parserError pos msg) =>
      let (line, col) := LineAndColOf str.toList pos
      let lint := NewLintError line msg
      [{ lint with Column := col }]
    | some (.otherError msg) => [NewLintError 0 msg]
  | _ => []

/-! ### `redis_streams` output writer (`internal/impl/redis`)

The dependencies of the writer outside the provided sources are abstracted: a
compiled interpolation field (`field.Expression`) is taken as its `String`
method, a function from a batch index and batch to the interpolated string;
the metadata exclude filter is taken as the function producing the filtered
metadata pairs its `Iter` visits, in order; the config sub-structures for
metadata filtering and the redis connection are opaque type parameters. -/

/-- A message part: its metadata pairs and its raw body (`AsBytes`). -/
structure Part where
  Metadata : List (String × String)
  AsBytes : String
deriving DecidableEq, Repr

/-- A message batch. -/
abbrev Batch := List Part

/-- A compiled `field.Expression`, as its `String(index, batch)` method. -/
abbrev FieldExpression := Nat → Batch → String

/-- A constructed `metadata.ExcludeFilter`, as the ordered key/value pairs
its `Iter` visits for a part. -/
abbrev MetaFilter := Part → List (String × String)

/-- Go `output.RedisStreamsConfig`, over opaque metadata-filter and
connection config types. -/
structure RedisStreamsConfig (MetaConf RedisConf : Type) where
  Stream : String
  BodyKey : String
  MaxLenApprox : Nat
  MaxInFlight : Nat
  Metadata : MetaConf
  Config : RedisConf

/-- The fields of `redisStreamsWriter` relevant to writing (logger and
client handle omitted). -/
structure redisStreamsWriter (MetaConf RedisConf : Type) where
  conf : RedisStreamsConfig MetaConf RedisConf
  stream : FieldExpression
  metaFilter : MetaFilter

/-- Go `newRedisStreamsWriter(conf, mgr)`, parametric in the three fallible
dependencies it calls: `newField` is `mgr.BloblEnvironment().NewField`,
`filterOf` is `conf.Metadata.Filter()`, `clientFromConfig` validates the
connection config. The Go `(nil, err)` return is the `.error` case. -/
def newRedisStreamsWriter {MetaConf RedisConf : Type}
    (newField : String → Except String FieldExpression)
    (filterOf : MetaConf → Except String MetaFilter)
    (clientFromConfig : RedisConf → Except String Unit)
    (conf : RedisStreamsConfig MetaConf RedisConf) :
    Except String (redisStreamsWriter MetaConf RedisConf) :=
  match newField conf.Stream with
  | .error e => .error ("failed to parse expression: " ++ e)
  | .ok stream =>
    match filterOf conf.Metadata with
    | .error e => .error ("failed to construct metadata filter: " ++ e)
    | .ok metaFilter =>
      match clientFromConfig conf.Config with
      | .error e => .error e
      | .ok _ => .ok ⟨conf, stream, metaFilter⟩

/-- Go map assignment `m[k] = v`: overwrite the entry for `k` when present,
insert it otherwise. The association list stands for the map; lookups go
through `mapGet`. -/
def mapSet (m : List (String × String)) (k v : String) : List (String × String) :=
  if m.any fun p => p.1 == k then
    m.map fun p => if p.1 == k then (k, v) else p
  else m ++ [(k, v)]

/-- Go map read `m[k]`. -/
def mapGet (m : List (String × String)) (k : String) : Option String :=
  (m.find? fun p => p.1 == k).map fun p => p.2

/-- The `partToMap` closure of `WriteBatch`: start from an empty map, set
every filtered metadata pair, then set the body under the configured body
key. -/
def partToMap {MetaConf RedisConf : Type}
    (r : redisStreamsWriter MetaConf RedisConf) (p : Part) :
    List (String × String) :=
  let values := (r.metaFilter p).foldl (fun m kv => mapSet m kv.1 kv.2) []
  mapSet values r.conf.BodyKey p.AsBytes

/-- The arguments of one `XADD` command. -/
structure XAddArgs where
  ID : String
  Stream : String
  MaxLenApprox : Nat
  Values : List (String × String)

/-- The `XADD` commands issued by `WriteBatch` for a batch, in order: a
single-part batch issues one direct command with index 0; a larger batch
issues one pipelined command per part at the index of that part. (Connection
state, error handling and the redis round-trip are outside the model.) -/
def writeBatchXAdds {MetaConf RedisConf : Type}
    (r : redisStreamsWriter MetaConf RedisConf) (msg : Batch) : List XAddArgs :=
  if msg.length == 1 then
    match msg with
    | p :: _ => [⟨"*", r.stream 0 msg, r.conf.MaxLenApprox, partToMap r p⟩]
    | [] => []
  else
    msg.enum.map fun ip =>
      ⟨"*", r.stream ip.1 msg, r.conf.MaxLenApprox, partToMap r ip.2⟩

/-! ### Helper lemmas -/

theorem methodForCatAux_preserves (s : MethodSpec) (cat : MethodCategory) :
    ∀ l : List MethodCatSpec,
      (methodForCatAux s cat l).1.Name = s.Name ∧
      (methodForCatAux s cat l).1.Status = s.Status ∧
      (methodForCatAux s cat l).1.Params = s.Params ∧
      (methodForCatAux s cat l).1.Categories = s.Categories
  | [] => by simp [methodForCatAux]
  | c :: rest => by
    by_cases h : c.Category == cat
    · simp only [methodForCatAux, h, if_pos]
      split <;> split <;> simp
    · simp only [methodForCatAux, h, if_neg, Bool.false_eq_true, not_false_iff]
      exact methodForCatAux_preserves s cat rest

theorem methodForCatAux_snd (s : MethodSpec) (cat : MethodCategory) :
    ∀ l : List MethodCatSpec,
      (methodForCatAux s cat l).2 = l.any fun c => c.Category == cat
  | [] => by simp [methodForCatAux]
  | c :: rest => by
    by_cases h : c.Category == cat
    · simp [methodForCatAux, h]
    · simp [methodForCatAux, h, methodForCatAux_snd s cat rest]

theorem methodForCat_name (s : MethodSpec) (cat : MethodCategory) :
    (methodForCat s cat).1.Name = s.Name :=
  (methodForCatAux_preserves s cat s.Categories).1

theorem methodForCat_snd (s : MethodSpec) (cat : MethodCategory) :
    (methodForCat s cat).2 = s.Categories.any fun c => c.Category == cat :=
  methodForCatAux_snd s cat s.Categories

theorem methodsForCat_map_name (cat : MethodCategory) :
    ∀ specs : List MethodSpec,
      (methodsForCat specs cat).map (fun s => s.Name) =
        ((specs.filter fun s => s.Categories.any fun c => c.Category == cat).map
          fun s => s.Name)
  | [] => by simp [methodsForCat]
  | spec :: rest => by
    have hrest := methodsForCat_map_name cat rest
    by_cases h : spec.Categories.any fun c => c.Category == cat
    · simp only [methodsForCat, List.filterMap_cons, List.filter_cons, h, if_pos]
      rw [show (methodForCat spec cat).2 = true from (methodForCat_snd spec cat).trans h]
      simp only [if_pos, List.map_cons, methodForCat_name spec cat]
      exact congrArg _ hrest
    · simp only [methodsForCat, List.filterMap_cons, List.filter_cons, h]
      rw [show (methodForCat spec cat).2 = false from
        (methodForCat_snd spec cat).trans (by simpa using h)]
      simpa using hrest

theorem methodBuckets_flatten (specs : List MethodSpec) :
    ∀ cats : List MethodCategory,
      ((cats.filterMap fun cat =>
          let methods := methodsForCat specs cat
          if methods.length > 0 then
            some (⟨cat, methods⟩ : methodCategory) else none).flatMap
        fun c => c.Specs.map fun s => s.Name) =
      cats.flatMap fun cat => (methodsForCat specs cat).map fun s => s.Name
  | [] => by simp
  | cat :: rest => by
    have hrest := methodBuckets_flatten specs rest
    by_cases h : (methodsForCat specs cat).length > 0
    · simp [List.filterMap_cons, h, hrest]
    · have hnil : methodsForCat specs cat = [] := by
        cases hc : methodsForCat specs cat with
        | nil => rfl
        | cons a l => rw [hc] at h; simp at h
      simp [List.filterMap_cons, h, hnil, hrest]

theorem functionBuckets_flatten (specs : List FunctionSpec) :
    ∀ cats : List FunctionCategory,
      ((cats.filterMap fun cat =>
          let functions := specs.filter fun s => s.Category == cat
          if functions.length > 0 then
            some (⟨cat, functions⟩ : functionCategory) else none).flatMap
        fun c => c.Specs.map fun s => s.Name) =
      cats.flatMap fun cat =>
        (specs.filter fun s => s.Category == cat).map fun s => s.Name
  | [] => by simp
  | cat :: rest => by
    have hrest := functionBuckets_flatten specs rest
    by_cases h : (specs.filter fun s => s.Category == cat).length > 0
    · simp [List.filterMap_cons, h, hrest]
    · have hnil : specs.filter (fun s => s.Category == cat) = [] := by
        cases hc : specs.filter fun s => s.Category == cat with
        | nil => rfl
        | cons a l => rw [hc] at h; simp at h
      simp [List.filterMap_cons, h, hnil, hrest]

theorem methodForCatAux_find (s : MethodSpec) (cat : MethodCategory) :
    ∀ l : List MethodCatSpec,
      methodForCatAux s cat l =
        match l.find? fun c => c.Category == cat with
        | some c =>
          ({ s with
              Description :=
                if c.Description.length > 0 then trimSpace c.Description
                else s.Description,
              Examples := if c.Examples.length > 0 then c.Examples else s.Examples },
            true)
        | none => (s, false)
  | [] => by simp [methodForCatAux]
  | c :: rest => by
    by_cases h : c.Category == cat
    · rw [List.find?_cons_of_pos (p := fun x => x.Category == cat) rest h]
      simp only [methodForCatAux, h, if_pos]
      by_cases hd : c.Description.length > 0 <;> by_cases he : c.Examples.length > 0 <;>
        simp [hd, he]
    · rw [List.find?_cons_of_neg (p := fun x => x.Category == cat) rest (by simpa using h)]
      simp only [methodForCatAux, h, if_neg, Bool.false_eq_true, not_false_iff]
      exact methodForCatAux_find s cat rest

theorem functionBuckets_eq_filter (specs : List FunctionSpec) :
    ∀ cats : List FunctionCategory,
      (cats.filterMap fun cat =>
        let functions : List FunctionSpec :=
          specs.filter fun spec => spec.Category == cat
        if functions.length > 0 then
          some (⟨cat, functions⟩ : functionCategory) else none)
      = (cats.map fun cat =>
          (⟨cat, specs.filter fun s => s.Category == cat⟩ : functionCategory)).filter
          fun c => !c.Specs.isEmpty
  | [] => rfl
  | cat :: rest => by
    cases hc : specs.filter fun spec => spec.Category == cat with
    | nil => simp [List.filterMap_cons, hc, functionBuckets_eq_filter specs rest]
    | cons a l => simp [List.filterMap_cons, hc, functionBuckets_eq_filter specs rest]

/-! ### Claims -/

/-- C3: for every method spec `s` and category `cat`, if `s` participates in
`cat` then `methodForCat s cat` returns an updated spec and `true`: it carries the
category-specific description (whitespace-trimmed) when that override is
non-empty and the own description of `s` otherwise, and the category-specific
examples when non-empty and the own examples of `s` otherwise (the first matching
participation entry is used); if `s` does not participate in `cat` it
returns `(s, false)`. -/
theorem methodForCat_category_override (s : MethodSpec) (cat : MethodCategory) :
    methodForCat s cat =
      match s.Categories.find? fun c => c.Category == cat with
      | some c =>
        ({ s with
            Description :=
              if c.Description.length > 0 then trimSpace c.Description
              else s.Description,
            Examples := if c.Examples.length > 0 then c.Examples else s.Examples },
          true)
      | none => (s, false) :=
  methodForCatAux_find s cat s.Categories

/-- C10: `methodForCat` never changes any field of the spec other than
`Description` and `Examples`: the returned spec keeps the `Name`, `Status`,
`Params` and `Categories` of the input. (The Go function operates on a
value copy of `s`; in this pure embedding the input is unmodified by
construction.) -/
theorem methodForCat_frame (s : MethodSpec) (cat : MethodCategory) :
    (methodForCat s cat).1.Name = s.Name ∧
    (methodForCat s cat).1.Status = s.Status ∧
    (methodForCat s cat).1.Params = s.Params ∧
    (methodForCat s cat).1.Categories = s.Categories :=
  methodForCatAux_preserves s cat s.Categories

/-- C4: `BloblangFunctionsMarkdown` groups the enumerated specs into
categories emitted in the fixed order General, Message, Environment,
Deprecated; within each category the specs keep their enumeration order
(`List.filter` preserves relative order); a category with no specs is
omitted from the document. -/
theorem bloblang_functions_markdown_grouping (specs : List FunctionSpec) :
    functionsContextOf specs =
      ⟨(functionCatList.map fun cat =>
          (⟨cat, specs.filter fun s => s.Category == cat⟩ : functionCategory)).filter
        fun c => !c.Specs.isEmpty⟩ :=
  congrArg functionsContext.mk (functionBuckets_eq_filter specs functionCatList)

/-- The counterexample spec for C1: a method with status hidden that
participates in the Strings category. -/
def hiddenStringsSpec : MethodSpec :=
  ⟨"hidden_method", statusHidden, [], [⟨methodCategoryStrings, "", []⟩], "desc", []⟩

/-- C1 counterexample: the claim that a spec with status hidden (or
deprecated) never appears in the output of `BloblangMethodsMarkdown` is
false: a hidden-status method participating in the Strings category is
rendered. -/
theorem bloblang_markdown_hidden_method_appears :
    hiddenStringsSpec.Status = statusHidden ∧
    hiddenStringsSpec.Name ∈ methodsDocNames [hiddenStringsSpec] := by
  constructor
  · rfl
  · decide

/-- C1 amended: the generated markdown filters by category, not status.
`BloblangMethodsMarkdown` renders, in order, the General block holding
exactly the specs with no categories and status not hidden, followed by the
nine fixed category blocks (Deprecated included) each holding exactly the
specs participating in that category regardless of status;
`BloblangFunctionsMarkdown` renders each function in the block of its own
category (General, Message, Environment, Deprecated) regardless of status.
Hence hidden- or deprecated-status entries do appear whenever they
participate in a listed category, and the only status-based exclusion is
the hidden check on the methods General block. -/
theorem bloblang_markdown_category_filtering
    (mspecs : List MethodSpec) (fspecs : List FunctionSpec) :
    methodsDocNames mspecs =
      ((mspecs.filter fun s =>
          s.Categories.length == 0 && s.Status != statusHidden).map
        fun s => s.Name) ++
      (methodCatList.flatMap fun cat =>
        (mspecs.filter fun s => s.Categories.any fun c => c.Category == cat).map
          fun s => s.Name) ∧
    functionsDocNames fspecs =
      functionCatList.flatMap fun cat =>
        (fspecs.filter fun s => s.Category == cat).map fun s => s.Name := by
  constructor
  · unfold methodsDocNames methodsContextOf
    have hgen : ∀ l : List MethodSpec,
        (l.map fun spec =>
          ({ spec with Description := trimSpace spec.Description } : MethodSpec)).map
            (fun s => s.Name) = l.map fun s => s.Name := by
      intro l; rw [List.map_map]; rfl
    rw [hgen, methodBuckets_flatten mspecs methodCatList]
    have hcats :
        (fun cat => (methodsForCat mspecs cat).map fun s => s.Name) =
          fun cat =>
            (mspecs.filter fun s => s.Categories.any fun c => c.Category == cat).map
              fun s => s.Name :=
      funext fun cat => methodsForCat_map_name cat mspecs
    rw [hcats]
  · unfold functionsDocNames functionsContextOf
    exact functionBuckets_flatten fspecs functionCatList

/-! ### Lemmas about `LineAndColOf` -/

theorem takeWhile_append_all {α : Type} {p : α → Bool} :
    ∀ l₁ l₂ : List α, l₁.all p = true →
      (l₁ ++ l₂).takeWhile p = l₁ ++ l₂.takeWhile p
  | [], l₂, _ => rfl
  | a :: l₁, l₂, h => by
    rw [List.all_cons, Bool.and_eq_true] at h
    simp [List.takeWhile_cons, h.1, takeWhile_append_all l₁ l₂ h.2]

theorem takeWhile_append_not_all {α : Type} {p : α → Bool} :
    ∀ l₁ l₂ : List α, l₁.all p = false →
      (l₁ ++ l₂).takeWhile p = l₁.takeWhile p
  | [], _, h => by simp at h
  | a :: l₁, l₂, h => by
    by_cases ha : p a = true
    · have hl : l₁.all p = false := by
        cases hl : l₁.all p with
        | true => rw [List.all_cons, ha, hl] at h; simp at h
        | false => rfl
      simp [List.takeWhile_cons, ha, takeWhile_append_not_all l₁ l₂ hl]
    · have ha' : p a = false := by simpa using ha
      simp [List.takeWhile_cons, ha']

theorem reverse_all_ne_newline :
    ∀ tk : List Char,
      tk.reverse.all (fun c => c != '\n') = !(tk.any fun c => c == '\n')
  | [] => rfl
  | c :: tk => by
    rw [List.reverse_cons, List.all_append, reverse_all_ne_newline tk, List.any_cons]
    simp only [List.all_cons, List.all_nil, Bool.and_true, Bool.not_or]
    cases tk.any (fun c => c == '\n') <;> cases hc : c == '\n' <;> simp [bne, hc]

theorem lineAndColAux_clamp :
    ∀ (src : List Char) (n line col : Nat),
      lineAndColAux src n line col = lineAndColAux src (min n src.length) line col
  | [], n, line, col => by cases n <;> simp [lineAndColAux]
  | c :: rest, 0, line, col => by simp [lineAndColAux]
  | c :: rest, n + 1, line, col => by
    rw [List.length_cons, Nat.succ_min_succ]
    by_cases h : c = '\n' <;>
      simp [lineAndColAux, h, lineAndColAux_clamp rest n]

theorem lineAndColAux_fst :
    ∀ (src : List Char) (n line col : Nat),
      (lineAndColAux src n line col).1 = line + (src.take n).count '\n'
  | [], n, line, col => by cases n <;> simp [lineAndColAux]
  | c :: rest, 0, line, col => by simp [lineAndColAux]
  | c :: rest, n + 1, line, col => by
    by_cases h : c = '\n'
    · rw [show lineAndColAux (c :: rest) (n + 1) line col =
          lineAndColAux rest n (line + 1) 1 by simp [lineAndColAux, h]]
      rw [lineAndColAux_fst rest n (line + 1) 1]
      simp [List.count_cons, h]
      omega
    · rw [show lineAndColAux (c :: rest) (n + 1) line col =
          lineAndColAux rest n line (col + 1) by simp [lineAndColAux, h]]
      rw [lineAndColAux_fst rest n line (col + 1)]
      simp [List.count_cons, h]

theorem lineAndColAux_snd :
    ∀ (src : List Char) (n line col : Nat),
      (lineAndColAux src n line col).2 =
        if (src.take n).any (fun c => c == '\n') then
          1 + ((src.take n).reverse.takeWhile fun c => c != '\n').length
        else col + (src.take n).length
  | [], n, line, col => by cases n <;> simp [lineAndColAux]
  | c :: rest, 0, line, col => by simp [lineAndColAux]
  | c :: rest, n + 1, line, col => by
    by_cases h : c = '\n'
    · rw [show lineAndColAux (c :: rest) (n + 1) line col =
          lineAndColAux rest n (line + 1) 1 by simp [lineAndColAux, h]]
      rw [lineAndColAux_snd rest n (line + 1) 1]
      rw [List.take_succ_cons]
      cases ha : (rest.take n).any fun c => c == '\n' with
      | true =>
        have hall : (rest.take n).reverse.all (fun c => c != '\n') = false := by
          rw [reverse_all_ne_newline, ha]; rfl
        simp only [if_pos, List.any_cons, h, ha, Bool.or_true, beq_self_eq_true,
          Bool.true_or, if_true, List.reverse_cons,
          takeWhile_append_not_all _ _ hall]
      | false =>
        have hall : (rest.take n).reverse.all (fun c => c != '\n') = true := by
          rw [reverse_all_ne_newline, ha]; rfl
        simp only [ha, if_neg, Bool.false_eq_true, not_false_iff, List.any_cons,
          h, beq_self_eq_true, Bool.true_or, if_true, List.reverse_cons,
          takeWhile_append_all _ _ hall]
        have : ([('\n' : Char)].takeWhile fun c => c != '\n') = [] := rfl
        rw [this, List.append_nil, List.length_reverse]
    · rw [show lineAndColAux (c :: rest) (n + 1) line col =
          lineAndColAux rest n line (col + 1) by simp [lineAndColAux, h]]
      rw [lineAndColAux_snd rest n line (col + 1)]
      rw [List.take_succ_cons]
      have hc : (c == '\n') = false := by simpa using h
      cases ha : (rest.take n).any fun c => c == '\n' with
      | true =>
        have hall : (rest.take n).reverse.all (fun c => c != '\n') = false := by
          rw [reverse_all_ne_newline, ha]; rfl
        simp only [if_pos, List.any_cons, hc, Bool.false_or, ha, if_true,
          List.reverse_cons, takeWhile_append_not_all _ _ hall]
      | false =>
        simp only [ha, if_neg, Bool.false_eq_true, not_false_iff, List.any_cons,
          hc, Bool.false_or, List.length_cons]
        omega

/-- C6: `LineAndColOf` returns the one-based line and column of the offset,
counted by scanning the source for preceding newlines: the line is one plus
the number of newlines before the offset, the column is one plus the number
of characters between the last such newline and the offset, an offset past
end-of-input is clamped to the end of the source (the function is total, so
it cannot panic), and on source `"a\nb\ncd"` the offset 4 of the character
`c` resolves to line 3, column 1. -/
theorem lineAndColOf_spec (source : List Char) (offset : Nat) :
    LineAndColOf source offset = LineAndColOf source (min offset source.length) ∧
    (LineAndColOf source offset).1 = 1 + (source.take offset).count '\n' ∧
    (LineAndColOf source offset).2 =
      1 + ((source.take offset).reverse.takeWhile fun c => c != '\n').length ∧
    LineAndColOf "a\nb\ncd".toList 4 = (3, 1) := by
  refine ⟨lineAndColAux_clamp source offset 1 1, ?_, ?_, by decide⟩
  · exact lineAndColAux_fst source offset 1 1
  · rw [LineAndColOf, lineAndColAux_snd source offset 1 1]
    cases ha : (source.take offset).any fun c => c == '\n' with
    | true => simp
    | false =>
      have hall : (source.take offset).reverse.all (fun c => c != '\n') = true := by
        rw [reverse_all_ne_newline, ha]; rfl
      have : (source.take offset).reverse.takeWhile (fun c => c != '\n') =
          (source.take offset).reverse := by
        have h := takeWhile_append_all (source.take offset).reverse
          ([] : List Char) hall
        simpa using h
      rw [this, List.length_reverse]
      simp [Nat.add_comm]

/-- C2: when compilation of a string fails with a parser error, the lint
functions return exactly one lint whose line and column are the one-based
coordinates computed by `LineAndColOf` from the position of the parser error in
the string, and whose message is the message of the parser error; for any other
compilation error they return exactly one lint carrying the error message
with line 0. -/
theorem lint_bloblang_parser_error_contract
    (newMapping newField : String → Option BloblangError) (str : String)
    (pos : Nat) (msg : String) :
    (newMapping str = some (.parserError pos msg) →
      LintBloblangMapping newMapping (.str str) =
        [⟨(LineAndColOf str.toList pos).1, (LineAndColOf str.toList pos).2, msg⟩]) ∧
    (newField str = some (.parserError pos msg) →
      LintBloblangField newField (.str str) =
        [⟨(LineAndColOf str.toList pos).1, (LineAndColOf str.toList pos).2, msg⟩]) ∧
    (newMapping str = some (.otherError msg) →
      LintBloblangMapping newMapping (.str str) = [⟨0, 0, msg⟩]) ∧
    (newField str = some (.otherError msg) →
      LintBloblangField newField (.str str) = [⟨0, 0, msg⟩]) := by
  refine ⟨fun h => ?_, fun h => ?_, fun h => ?_, fun h => ?_⟩ <;>
    simp [LintBloblangMapping, LintBloblangField, h, NewLintError]

/-- A concrete fallible compiler used to witness the lint contract: one
string fails with a parser error at offset 4, another with a non-parser
error, all others compile. -/
def demoCompile : String → Option BloblangError := fun s =>
  if s = "a\nb\ncd" then some (.parserError 4 "expected query")
  else if s = "let" then some (.otherError "compile failed")
  else none

theorem lint_bloblang_parser_error_contract_witness :
    LintBloblangMapping demoCompile (.str "a\nb\ncd") =
      [⟨3, 1, "expected query"⟩] ∧
    LintBloblangField demoCompile (.str "a\nb\ncd") =
      [⟨3, 1, "expected query"⟩] ∧
    LintBloblangMapping demoCompile (.str "let") = [⟨0, 0, "compile failed"⟩] ∧
    LintBloblangField demoCompile (.str "let") = [⟨0, 0, "compile failed"⟩] := by
  have h₁ := lint_bloblang_parser_error_contract demoCompile demoCompile
    "a\nb\ncd" 4 "expected query"
  have h₂ := lint_bloblang_parser_error_contract demoCompile demoCompile
    "let" 4 "compile failed"
  exact ⟨(h₁.1 (by decide)).trans (by decide),
    (h₁.2.1 (by decide)).trans (by decide),
    h₂.2.2.1 (by decide), h₂.2.2.2 (by decide)⟩

/-- C8: the lint functions return no lints for any non-string value and for
any string that compiles successfully; a lint is produced only for a string
whose compilation fails. -/
theorem lint_bloblang_only_failing_strings
    (newMapping newField : String → Option BloblangError) (v : GoValue) :
    ((∀ s, v ≠ .str s) →
      LintBloblangMapping newMapping v = [] ∧ LintBloblangField newField v = []) ∧
    (∀ s, v = .str s → newMapping s = none →
      LintBloblangMapping newMapping v = []) ∧
    (∀ s, v = .str s → newField s = none →
      LintBloblangField newField v = []) ∧
    (LintBloblangMapping newMapping v ≠ [] →
      ∃ s e, v = .str s ∧ newMapping s = some e) ∧
    (LintBloblangField newField v ≠ [] →
      ∃ s e, v = .str s ∧ newField s = some e) := by
  refine ⟨fun h => ?_, fun s hv h => ?_, fun s hv h => ?_, fun h => ?_, fun h => ?_⟩
  · cases v with
    | str s => exact absurd rfl (h s)
    | intV n => exact ⟨rfl, rfl⟩
    | boolV b => exact ⟨rfl, rfl⟩
    | nullV => exact ⟨rfl, rfl⟩
  · subst hv; simp [LintBloblangMapping, h]
  · subst hv; simp [LintBloblangField, h]
  · cases v with
    | str s =>
      cases he : newMapping s with
      | none => rw [show LintBloblangMapping newMapping (.str s) = [] by
          simp [LintBloblangMapping, he]] at h; exact absurd rfl h
      | some e => exact ⟨s, e, rfl, he⟩
    | intV n => exact absurd rfl h
    | boolV b => exact absurd rfl h
    | nullV => exact absurd rfl h
  · cases v with
    | str s =>
      cases he : newField s with
      | none => rw [show LintBloblangField newField (.str s) = [] by
          simp [LintBloblangField, he]] at h; exact absurd rfl h
      | some e => exact ⟨s, e, rfl, he⟩
    | intV n => exact absurd rfl h
    | boolV b => exact absurd rfl h
    | nullV => exact absurd rfl h

theorem lint_bloblang_only_failing_strings_witness :
    (LintBloblangMapping demoCompile (.intV 5) = [] ∧
      LintBloblangField demoCompile (.intV 5) = []) ∧
    LintBloblangMapping demoCompile (.str "root = this") = [] ∧
    LintBloblangField demoCompile (.str "root = this") = [] := by
  have h₁ := lint_bloblang_only_failing_strings demoCompile demoCompile (.intV 5)
  have h₂ := lint_bloblang_only_failing_strings demoCompile demoCompile
    (.str "root = this")
  exact ⟨h₁.1 (fun s h => by cases h),
    h₂.2.1 "root = this" rfl (by decide),
    h₂.2.2.1 "root = this" rfl (by decide)⟩

/-! ### Lemmas about the Go map embedding -/

theorem mapGet_append_single (k v : String) :
    ∀ m : List (String × String), (m.any fun p => p.1 == k) = false →
      mapGet (m ++ [(k, v)]) k = some v
  | [], _ => by simp [mapGet, List.find?]
  | q :: m, h => by
    rw [List.any_cons, Bool.or_eq_false_iff] at h
    rw [List.cons_append, mapGet,
      List.find?_cons_of_neg _ (by simp [h.1])]
    exact mapGet_append_single k v m h.2

theorem mapGet_replace (k v : String) :
    ∀ m : List (String × String), (m.any fun p => p.1 == k) = true →
      mapGet (m.map fun p => if p.1 == k then (k, v) else p) k = some v
  | [], h => by simp at h
  | q :: m, h => by
    by_cases hq : (q.1 == k) = true
    · rw [List.map_cons, if_pos hq, mapGet,
        List.find?_cons_of_pos _ (by simp)]
      rfl
    · have hq' : (q.1 == k) = false := by simpa using hq
      have hm : (m.any fun p => p.1 == k) = true := by
        rw [List.any_cons, hq'] at h; simpa using h
      rw [List.map_cons, if_neg (by simp [hq']), mapGet,
        List.find?_cons_of_neg _ (by simp [hq'])]
      exact mapGet_replace k v m hm

theorem mapGet_mapSet (m : List (String × String)) (k v : String) :
    mapGet (mapSet m k v) k = some v := by
  rw [mapSet]
  by_cases h : (m.any fun p => p.1 == k) = true
  · rw [if_pos h]; exact mapGet_replace k v m h
  · rw [if_neg h]
    exact mapGet_append_single k v m (by simp only [Bool.not_eq_true] at h; exact h)

/-- C5: parse errors fail fast at configuration load: whenever the `stream`
field of the configuration fails to parse as an interpolation expression,
`newRedisStreamsWriter` returns no writer, only an error (the Go
`(nil, err)`), regardless of the remaining construction steps. -/
theorem redis_streams_fail_fast {MetaConf RedisConf : Type}
    (newField : String → Except String FieldExpression)
    (filterOf : MetaConf → Except String MetaFilter)
    (clientFromConfig : RedisConf → Except String Unit)
    (conf : RedisStreamsConfig MetaConf RedisConf) (e : String)
    (h : newField conf.Stream = .error e) :
    newRedisStreamsWriter newField filterOf clientFromConfig conf =
      .error ("failed to parse expression: " ++ e) := by
  rw [newRedisStreamsWriter, h]

/-- A concrete configuration used by the redis witnesses. -/
def demoConf : RedisStreamsConfig Unit Unit :=
  ⟨"stream-one", "body", 0, 1, (), ()⟩

theorem redis_streams_fail_fast_witness :
    newRedisStreamsWriter (fun _ => .error "parse boom")
      (fun _ => .ok fun p => p.Metadata) (fun _ => .ok ()) demoConf =
      .error "failed to parse expression: parse boom" :=
  redis_streams_fail_fast (fun _ => .error "parse boom")
    (fun _ => .ok fun p => p.Metadata) (fun _ => .ok ()) demoConf "parse boom" rfl

/-- C7: `WriteBatch` issues exactly one `XADD` per message of the batch and
evaluates the compiled stream interpolation once per message at that
own index of that message: the command for message `i` carries the stream name
`r.stream i msg`, so each message of a batch may be routed to a different
stream. -/
theorem writeBatch_stream_per_index {MetaConf RedisConf : Type}
    (r : redisStreamsWriter MetaConf RedisConf) (msg : Batch) :
    (writeBatchXAdds r msg).length = msg.length ∧
    (writeBatchXAdds r msg).map (fun a => a.Stream) =
      (List.range msg.length).map fun i => r.stream i msg := by
  have hmap : (writeBatchXAdds r msg).map (fun a => a.Stream) =
      (List.range msg.length).map fun i => r.stream i msg := by
    unfold writeBatchXAdds
    by_cases h : (msg.length == 1) = true
    · rw [if_pos h]
      have h1 : msg.length = 1 := by simpa using h
      cases msg with
      | nil => simp at h1
      | cons p rest => rw [h1]; simp [List.range_succ]
    · rw [if_neg h, List.map_map]
      calc msg.enum.map
            ((fun a => a.Stream) ∘ fun ip =>
              (⟨"*", r.stream ip.1 msg, r.conf.MaxLenApprox,
                partToMap r ip.2⟩ : XAddArgs))
          = msg.enum.map ((fun i => r.stream i msg) ∘ Prod.fst) := rfl
        _ = (msg.enum.map Prod.fst).map fun i => r.stream i msg := by
            rw [List.map_map]
        _ = (List.range msg.length).map fun i => r.stream i msg := by
            rw [List.enum_map_fst]
  refine ⟨?_, hmap⟩
  have := congrArg List.length hmap
  simpa using this

/-- C9: `partToMap` writes the message body under the configured body key
after all metadata pairs, so when the filtered metadata contains a key
equal to the body key, the body value overwrites the metadata value: the
resulting map always maps the body key to the raw message body. -/
theorem partToMap_body_precedence {MetaConf RedisConf : Type}
    (r : redisStreamsWriter MetaConf RedisConf) (p : Part)
    (_h : ((r.metaFilter p).any fun kv => kv.1 == r.conf.BodyKey) = true) :
    mapGet (partToMap r p) r.conf.BodyKey = some p.AsBytes := by
  simp only [partToMap]
  exact mapGet_mapSet _ _ _

/-- A concrete writer whose metadata filter passes all metadata through,
used by the body-precedence witness. -/
def demoWriter : redisStreamsWriter Unit Unit :=
  ⟨demoConf, fun _ _ => "stream-one", fun p => p.Metadata⟩

/-- A message part whose metadata collides with the configured body key. -/
def demoPart : Part := ⟨[("body", "meta-value"), ("k2", "v2")], "actual-body"⟩

theorem partToMap_body_precedence_witness :
    mapGet (partToMap demoWriter demoPart) "body" = some "actual-body" :=
  partToMap_body_precedence demoWriter demoPart (by decide)

end Benthos







